import Mathlib

/-!
Verification of the slicing module of abTEM (`src/abtem/slicing.py`).

The module partitions a 3-D atomic structure (an orthogonal box together with
a list of atom positions and atomic numbers) into thin slabs along the z
(propagation) axis.  We give a shallow embedding over `ℚ`: every numeric value
of the Python code becomes an exact rational, NumPy array operations become
list operations, and fallible code returns `Except String`.

Correspondence to the source:
* `isclose`                      — `np.isclose` with its default tolerances
                                   (atol = 1e-8, rtol = 1e-5).
* `crystal_slice_thicknesses`    — `crystal_slice_thicknesses`.
* `_validate_slice_thickness`    — `_validate_slice_thickness`.
* `slice_limits`                 — `slice_limits`.
* `_unpack_item`                 — `_unpack_item`.
* `SliceIndexedAtoms`            — class `SliceIndexedAtoms` (binning via
                                   `np.digitize` at construction).
* `SlicedAtoms`                  — class `SlicedAtoms`.

An `Atoms` value models the external ASE `Atoms` object restricted to the
orthogonal cells this module accepts: the cell is kept as its diagonal
`(x, y, z)`, and `positions` / `numbers` are index-aligned lists.
-/

namespace AbtemSlicing

/-- The ASE `Atoms` object as used by the slicing module: an orthogonal cell
(kept as the diagonal extents), atom positions and atomic numbers,
index-aligned. -/
structure Atoms where
  cell : ℚ × ℚ × ℚ
  positions : List (ℚ × ℚ × ℚ)
  numbers : List ℕ
deriving DecidableEq

/-- Fancy-indexing `atoms[in_slice]` with an integer index array. -/
def Atoms.select (a : Atoms) (idx : List ℕ) : Atoms :=
  { cell := a.cell
    positions := idx.map (fun j => a.positions.getD j (0, 0, 0))
    numbers := idx.map (fun j => a.numbers.getD j 0) }

/-- Boolean-mask indexing `atoms[mask]` where the mask is computed per atom
from its position and its atomic number. -/
def Atoms.filterAtoms (a : Atoms) (keep : ℚ × ℚ × ℚ → ℕ → Bool) : Atoms :=
  { cell := a.cell
    positions := ((a.positions.zip a.numbers).filter
        (fun pn => keep pn.1 pn.2)).map Prod.fst
    numbers := ((a.positions.zip a.numbers).filter
        (fun pn => keep pn.1 pn.2)).map Prod.snd }

/-- The z coordinate of a position triple. -/
def zc (p : ℚ × ℚ × ℚ) : ℚ := p.2.2

/-- np.isclose with the default tolerances: |a - b| <= atol + rtol * |b|,
atol = 1e-8, rtol = 1e-5. -/
def isclose (a b : ℚ) : Bool :=
  decide (|a - b| ≤ 1 / 100000000 + (1 / 100000) * |b|)

/-- np.cumsum, with an explicit accumulator. -/
def cumsumAux (acc : ℚ) : List ℚ → List ℚ
  | [] => []
  | t :: rest => (acc + t) :: cumsumAux (acc + t) rest

/-- np.cumsum of a list of rationals. -/
def cumsum (l : List ℚ) : List ℚ := cumsumAux 0 l

/-- np.diff of a list of rationals. -/
def npDiff : List ℚ → List ℚ
  | a :: b :: rest => (b - a) :: npDiff (b :: rest)
  | _ => []

/-- np.digitize with monotonically increasing bins (right-open intervals,
the default `right=False`): the returned index is the number of bin
boundaries that are `≤ x`, i.e. `np.searchsorted(bins, x, side="right")`. -/
def npDigitize (x : ℚ) (bins : List ℚ) : ℕ :=
  bins.countP (fun b => decide (b ≤ x))

/-- Inserting an integer into a strictly sorted list, keeping it strictly
sorted (duplicates are dropped). -/
def insertSorted (x : ℤ) : List ℤ → List ℤ
  | [] => [x]
  | y :: rest =>
    if x < y then x :: y :: rest
    else if x = y then y :: rest
    else y :: insertSorted x rest

/-- np.unique: the distinct values of a list, in increasing order. -/
def npUnique (l : List ℤ) : List ℤ := l.foldr insertSorted []

/-- Source `crystal_slice_thicknesses`: collect the atom z coordinates
together with the sentinels `0` and the cell height, bucket them by
`floor(z / tolerance)` (`np.unique` keeps each bucket once, sorted), take
bucket midpoints as plane positions, and diff consecutive positions.
`np.insert` on an empty position array raises, and the final `assert`
raises when the thickness sum is not `np.isclose` to the cell height;
both become `.error`. -/
def crystal_slice_thicknesses (atoms : Atoms) (tolerance : ℚ) :
    Except String (List ℚ) :=
  if atoms.positions.isEmpty then .error "IndexError" else
  let z : List ℚ := atoms.positions.map zc ++ [0, atoms.cell.2.2]
  let unique : List ℤ := npUnique (z.map (fun v => ⌊v / tolerance⌋))
  let slice_positions : List ℚ :=
    unique.map (fun u : ℤ => ((u : ℚ) + 1 / 2) * tolerance)
  let slice_thickness := npDiff slice_positions
  if isclose slice_thickness.sum atoms.cell.2.2 then .ok slice_thickness
  else .error "AssertionError"

/-- The `slice_thickness` argument of `_validate_slice_thickness`: either a
single number (`is_number` returns true) or a sequence of numbers. -/
inductive SliceThicknessSpec where
  | num (t : ℚ)
  | seq (ts : List ℚ)
deriving DecidableEq

/-- Source `_validate_slice_thickness`.  For a single number with a total
`thickness`, the slab count is `n = ceil(thickness / t)` and each entry is
`thickness / n`; for a single number with `num_slices`, the entry is
repeated; a sequence is taken verbatim.  Afterwards the sum is checked
against `thickness` with `np.isclose` and the length against `num_slices`;
each `raise RuntimeError` becomes `.error`. -/
def _validate_slice_thickness (slice_thickness : SliceThicknessSpec)
    (thickness : Option ℚ) (num_slices : Option ℕ) :
    Except String (List ℚ) :=
  let validated? : Except String (List ℚ) :=
    match slice_thickness, thickness, num_slices with
    | .num t, some th, _ =>
        let n : ℤ := ⌈th / t⌉
        .ok (List.replicate n.toNat (th / (n : ℚ)))
    | .num t, none, some ns => .ok (List.replicate ns t)
    | .num _, none, none =>
        .error "Either thickness or num_slices must be given."
    | .seq ts, _, _ => .ok ts
  match validated? with
  | .error e => .error e
  | .ok validated =>
    let sumOk : Bool := match thickness with
      | some th => isclose validated.sum th
      | none => true
    if !sumOk then
      .error "Sum of slice thicknesses must be equal to the depth of the cell."
    else
      let lenOk : Bool := match num_slices with
        | some ns => validated.length == ns
        | none => true
      if !lenOk then
        .error "Number of slice thicknesses must match the number of slices."
      else .ok validated

/-- Source `slice_limits`: `itertools.accumulate((0,) + slice_thickness)`
prepends a zero to the running sums, and consecutive pairs are the
entrance/exit limits of each slice. -/
def slice_limits (slice_thickness : List ℚ) : List (ℚ × ℚ) :=
  let cum : List ℚ := 0 :: cumsumAux 0 slice_thickness
  cum.zip cum.tail

/-- The `item` argument of `_unpack_item`: a Python int or slice (a slice
stores optional start/stop). -/
inductive SliceItem where
  | int (i : ℤ)
  | slice (start stop : Option ℤ)
deriving DecidableEq

/-- Source `_unpack_item`: an int maps to `(i, i + 1)`, a slice defaults
start/stop to `0` / `num_items`; then `last_index` is clamped with
`min(last_index, num_items)` and `IndexError` is raised when
`first_index >= last_index`. -/
def _unpack_item (item : SliceItem) (num_items : ℤ) :
    Except String (ℤ × ℤ) :=
  let fl : ℤ × ℤ :=
    match item with
    | .int i => (i, i + 1)
    | .slice s e => (s.getD 0, e.getD num_items)
  let first_index := fl.1
  let last_index := min fl.2 num_items
  if first_index ≥ last_index then .error "IndexError"
  else .ok (first_index, last_index)

/-- Written from the words of the claim about `_unpack_item` (to be compared
with the source embedding): an integer item `i` resolves to
`first = i, last = i + 1`; a slice item defaults start to `0` and stop to
`num_items` and clamps last to at most `num_items`; the call fails with an
index error exactly when, after clamping, `first ≥ last`, and otherwise
returns the resolved indices unchanged. -/
def unpackItemClaim (item : SliceItem) (num_items : ℤ) :
    Except String (ℤ × ℤ) :=
  match item with
  | .int i =>
      if i ≥ min (i + 1) num_items then .error "IndexError"
      else .ok (i, i + 1)
  | .slice s e =>
      let first := s.getD 0
      let last := min (e.getD num_items) num_items
      if first ≥ last then .error "IndexError" else .ok (first, last)

/-- Modelled from the spec: `label_to_index` from `abtem.core.utils` is not
among the provided sources.  Per the spec's per-slab membership index, it
maps each label `l` in `0 .. max_label` to the list of positions in
`labels` holding label `l`, in increasing order of position (empty buckets
allowed; positions with labels outside the range appear in no bucket). -/
def label_to_index (labels : List ℕ) (max_label : ℤ) : List (List ℕ) :=
  (List.range (max_label + 1).toNat).map
    (fun l => (List.range labels.length).filter
      (fun j => labels.getD j 0 == l))

/-- Class `SliceIndexedAtoms`: the source atoms together with the validated
slice thicknesses (`BaseSlicedAtoms.__init__` stores both). -/
structure SliceIndexedAtoms where
  atoms : Atoms
  slice_thickness : List ℚ
deriving DecidableEq

/-- `BaseSlicedAtoms.num_slices`. -/
def SliceIndexedAtoms.num_slices (s : SliceIndexedAtoms) : ℕ :=
  s.slice_thickness.length

/-- The labels computed in `SliceIndexedAtoms.__init__`:
`np.digitize(atoms.positions[:, 2], np.cumsum(slice_thickness))`. -/
def SliceIndexedAtoms.labels (s : SliceIndexedAtoms) : List ℕ :=
  s.atoms.positions.map (fun p => npDigitize (zc p) (cumsum s.slice_thickness))

/-- The per-slab index built in `SliceIndexedAtoms.__init__`:
`label_to_index(labels, max_label=len(self) - 1)` (a Python int, so the
maximal label is `num_slices - 1` as an integer). -/
def SliceIndexedAtoms.slice_index (s : SliceIndexedAtoms) : List (List ℕ) :=
  label_to_index s.labels ((s.num_slices : ℤ) - 1)

/-- The `in_slice` index array of `SliceIndexedAtoms.get_atoms_in_slices`:
the single bucket `slice_index[first_slice]` when the range spans fewer
than two slices, otherwise `np.concatenate(slice_index[first:last])`. -/
def SliceIndexedAtoms.selection (s : SliceIndexedAtoms)
    (first_slice last_slice : ℕ) : List ℕ :=
  if last_slice - first_slice < 2 then s.slice_index.getD first_slice []
  else ((s.slice_index.drop first_slice).take (last_slice - first_slice)).flatten

/-- Source `SliceIndexedAtoms.get_atoms_in_slices`: `last_slice` defaults to
`first_slice`; the selected atoms are optionally filtered by atomic
number; the cell height becomes `sum(slice_thickness[first:last])` and all
z coordinates are shifted down by `sum(slice_thickness[:first])`. -/
def SliceIndexedAtoms.get_atoms_in_slices (s : SliceIndexedAtoms)
    (first_slice : ℕ) (last_slice : Option ℕ) (atomic_number : Option ℕ) :
    Atoms :=
  let last := last_slice.getD first_slice
  let in_slice := s.selection first_slice last
  let atoms := s.atoms.select in_slice
  let atoms := match atomic_number with
    | none => atoms
    | some za => atoms.filterAtoms (fun _ n => n == za)
  let st := (s.slice_thickness.drop first_slice).take (last - first_slice)
  let shift := (s.slice_thickness.take first_slice).sum
  { cell := (atoms.cell.1, atoms.cell.2.1, st.sum)
    positions := atoms.positions.map (fun p => (p.1, p.2.1, p.2.2 - shift))
    numbers := atoms.numbers }

/-- Class `SlicedAtoms`: the source atoms, validated slice thicknesses, and
the two padding parameters stored by `SlicedAtoms.__init__`. -/
structure SlicedAtoms where
  atoms : Atoms
  slice_thickness : List ℚ
  xy_padding : ℚ
  z_padding : ℚ
deriving DecidableEq

/-- `BaseSlicedAtoms.num_slices` for `SlicedAtoms`. -/
def SlicedAtoms.num_slices (s : SlicedAtoms) : ℕ :=
  s.slice_thickness.length

/-- Source `SlicedAtoms.get_atoms_in_slices`: `last_slice` defaults to
`first_slice`; `a`/`b` are the entrance limit of `first_slice` and the
exit limit of `last_slice`; atoms are kept when their z coordinate lies in
`[a - z_padding, b + z_padding)` (intersected with the atomic-number mask
when given); the result keeps the transverse cell extents and gets cell
height `b - a`, and positions are not modified. -/
def SlicedAtoms.get_atoms_in_slices (s : SlicedAtoms)
    (first_slice : ℕ) (last_slice : Option ℕ) (atomic_number : Option ℕ) :
    Atoms :=
  let last := last_slice.getD first_slice
  let a := ((slice_limits s.slice_thickness).getD first_slice (0, 0)).1
  let b := ((slice_limits s.slice_thickness).getD last (0, 0)).2
  let atoms := s.atoms.filterAtoms (fun p n =>
    (decide (a - s.z_padding ≤ zc p) && decide (zc p < b + s.z_padding)) &&
    (match atomic_number with
     | none => true
     | some za => n == za))
  { atoms with cell := (s.atoms.cell.1, s.atoms.cell.2.1, b - a) }

/-- A concrete sliced structure used by several checks: a 4 x 4 x 10 box,
three atoms at z = 2, 3, 7, thicknesses [2, 3, 5]. -/
def scenarioIndexed : SliceIndexedAtoms :=
  { atoms := { cell := (4, 4, 10)
               positions := [(1, 1, 2), (1, 1, 3), (1, 1, 7)]
               numbers := [6, 6, 6] }
    slice_thickness := [2, 3, 5] }

/-- A concrete `SlicedAtoms` used by several checks: same box, atoms at
z = 0, 2, 9 with two species, thicknesses [2, 3, 5], no padding. -/
def scenarioSliced : SlicedAtoms :=
  { atoms := { cell := (4, 4, 10)
               positions := [(1, 1, 0), (1, 1, 2), (1, 1, 9)]
               numbers := [6, 6, 8] }
    slice_thickness := [2, 3, 5]
    xy_padding := 0
    z_padding := 0 }

/-! Helper lemmas about the embedded operations. -/

theorem cumsumAux_length (acc : ℚ) (l : List ℚ) :
    (cumsumAux acc l).length = l.length := by
  induction l generalizing acc with
  | nil => rfl
  | cons t rest ih => simp [cumsumAux, ih]

theorem cumsumAux_get? (acc : ℚ) (l : List ℚ) (i : ℕ) (h : i < l.length) :
    (cumsumAux acc l).get? i = some (acc + (l.take (i + 1)).sum) := by
  induction l generalizing acc i with
  | nil => simp at h
  | cons t rest ih =>
    cases i with
    | zero => simp [cumsumAux]
    | succ i =>
      simp only [cumsumAux, List.get?_cons_succ]
      rw [ih (acc + t) i (by simpa using h)]
      simp [add_assoc]

theorem mem_cumsumAux_gt (acc : ℚ) (l : List ℚ) (hpos : ∀ t ∈ l, 0 < t) :
    ∀ x ∈ cumsumAux acc l, acc < x := by
  induction l generalizing acc with
  | nil => simp [cumsumAux]
  | cons t rest ih =>
    intro x hx
    have ht : 0 < t := hpos t (by simp)
    simp only [cumsumAux, List.mem_cons] at hx
    rcases hx with rfl | hx
    · linarith
    · have := ih (acc + t) (fun u hu => hpos u (by simp [hu])) x hx
      linarith

theorem cumsumAux_pairwise (acc : ℚ) (l : List ℚ) (hpos : ∀ t ∈ l, 0 < t) :
    (cumsumAux acc l).Pairwise (· < ·) := by
  induction l generalizing acc with
  | nil => simp [cumsumAux]
  | cons t rest ih =>
    simp only [cumsumAux, List.pairwise_cons]
    exact ⟨mem_cumsumAux_gt (acc + t) rest
        (fun u hu => hpos u (by simp [hu])),
      ih (acc + t) (fun u hu => hpos u (by simp [hu]))⟩

theorem countP_pairwise_boundary (l : List ℚ) (hl : l.Pairwise (· < ·))
    (k : ℕ) (z : ℚ) (hz : l.get? k = some z) :
    l.countP (fun b => decide (b ≤ z)) = k + 1 := by
  induction l generalizing k with
  | nil => simp at hz
  | cons a rest ih =>
    rcases List.pairwise_cons.mp hl with ⟨ha, hrest⟩
    cases k with
    | zero =>
      simp only [List.get?_cons_zero, Option.some.injEq] at hz
      subst hz
      rw [List.countP_cons_of_pos _ _ (by simp)]
      rw [List.countP_eq_zero.mpr]
      intro b hb
      simpa using not_le.mpr (ha b hb)
    | succ k =>
      simp only [List.get?_cons_succ] at hz
      have hz_mem : z ∈ rest := List.get?_mem hz
      rw [List.countP_cons_of_pos _ _ (by simpa using le_of_lt (ha z hz_mem))]
      rw [ih hrest k hz]

theorem sum_nonneg_of_mem (l : List ℚ) (h : ∀ t ∈ l, 0 ≤ t) : 0 ≤ l.sum := by
  induction l with
  | nil => simp
  | cons a rest ih =>
    simp only [List.sum_cons]
    have := h a (by simp)
    have := ih (fun u hu => h u (by simp [hu]))
    linarith

theorem sum_take_le (l : List ℚ) (n : ℕ) (hpos : ∀ t ∈ l, 0 ≤ t) :
    (l.take n).sum ≤ l.sum := by
  conv_rhs => rw [← List.take_append_drop n l]
  rw [List.sum_append]
  have : 0 ≤ (l.drop n).sum :=
    sum_nonneg_of_mem _ (fun u hu => hpos u (List.drop_subset n l hu))
  linarith

theorem mem_cumsum_le_sum (l : List ℚ) (hpos : ∀ t ∈ l, 0 ≤ t) :
    ∀ x ∈ cumsum l, x ≤ l.sum := by
  intro x hx
  rcases List.mem_iff_get?.mp hx with ⟨n, hn⟩
  have hlen : n < l.length := by
    have := List.get?_eq_some.mp hn
    rcases this with ⟨h, _⟩
    simpa [cumsum, cumsumAux_length] using h
  rw [cumsum, cumsumAux_get? 0 l n hlen] at hn
  have : x = (l.take (n + 1)).sum := by
    have := Option.some.inj hn
    linarith [this]
  rw [this]
  exact sum_take_le l (n + 1) hpos

theorem sum_mem_cumsum (l : List ℚ) (h : l ≠ []) : l.sum ∈ cumsum l := by
  have hlen : 0 < l.length := List.length_pos.mpr h
  apply List.get?_mem (n := l.length - 1)
  rw [cumsum, cumsumAux_get? 0 l (l.length - 1) (by omega)]
  rw [show l.length - 1 + 1 = l.length by omega, List.take_length, zero_add]

theorem isclose_self (a : ℚ) : isclose a a = true := by
  simp only [isclose, decide_eq_true_eq, sub_self, abs_zero]
  positivity

theorem getD_map_range (n : ℕ) (f : ℕ → List ℕ) (i : ℕ) :
    ((List.range n).map f).getD i [] = if i < n then f i else [] := by
  rw [List.getD_eq_getD_get?, List.get?_map]
  by_cases h : i < n
  · rw [List.get?_range h]
    simp [h]
  · rw [List.get?_eq_none.mpr (by simpa using h)]
    simp [h]

theorem mem_label_to_index (labels : List ℕ) (max_label : ℤ) (i j : ℕ) :
    j ∈ (label_to_index labels max_label).getD i [] ↔
      ((i : ℤ) ≤ max_label ∧ j < labels.length ∧ labels.getD j 0 = i) := by
  unfold label_to_index
  rw [getD_map_range]
  by_cases h : i < (max_label + 1).toNat
  · simp only [if_pos h, List.mem_filter, List.mem_range, beq_iff_eq]
    constructor
    · rintro ⟨h1, h2⟩
      exact ⟨by omega, h1, h2⟩
    · rintro ⟨_, h1, h2⟩
      exact ⟨h1, h2⟩
  · simp only [if_neg h, List.not_mem_nil, false_iff, not_and]
    intro h1
    omega

theorem label_to_index_length (labels : List ℕ) (max_label : ℤ) :
    (label_to_index labels max_label).length = (max_label + 1).toNat := by
  simp [label_to_index]

theorem slice_index_length (s : SliceIndexedAtoms) :
    s.slice_index.length = s.num_slices := by
  rw [SliceIndexedAtoms.slice_index, label_to_index_length]
  omega

theorem labels_length (s : SliceIndexedAtoms) :
    s.labels.length = s.atoms.positions.length := by
  simp [SliceIndexedAtoms.labels]

theorem labels_getD (s : SliceIndexedAtoms) (j : ℕ) (p : ℚ × ℚ × ℚ)
    (hj : s.atoms.positions.get? j = some p) :
    s.labels.getD j 0 = npDigitize (zc p) (cumsum s.slice_thickness) := by
  unfold SliceIndexedAtoms.labels
  rw [List.getD_eq_getD_get?, List.get?_map, hj]
  rfl

/-! Theorems for the claims. -/

/-- C6: for every thickness sequence the boundary table `slice_limits` has
one (entry, exit) pair per slab, entry of the first pair is 0, the exit of
each pair equals the entry of the next, the exit of the final pair is the
sum of the thicknesses, and for thicknesses [2, 3, 5] the table is
[(0,2), (2,5), (5,10)]. -/
theorem slice_limits_boundary_table :
    (∀ ts : List ℚ, (slice_limits ts).length = ts.length) ∧
    (∀ ts : List ℚ, ∀ e x, (slice_limits ts).get? 0 = some (e, x) → e = 0) ∧
    (∀ ts : List ℚ, ∀ i a b a' b', (slice_limits ts).get? i = some (a, b) →
        (slice_limits ts).get? (i + 1) = some (a', b') → b = a') ∧
    (∀ ts : List ℚ, ∀ a b,
        (slice_limits ts).get? (ts.length - 1) = some (a, b) → b = ts.sum) ∧
    slice_limits [2, 3, 5] = [(0, 2), (2, 5), (5, 10)] := by
  refine ⟨?_, ?_, ?_, ?_, ?_⟩
  · intro ts
    simp [slice_limits, List.length_zip, cumsumAux_length]
  · intro ts e x h
    rw [slice_limits] at h
    rw [List.get?_zip_eq_some] at h
    have := h.1
    cases ts with
    | nil => simpa using this.symm
    | cons t rest => simpa [cumsumAux] using this.symm
  · intro ts i a b a' b' h1 h2
    rw [slice_limits, List.get?_zip_eq_some] at h1 h2
    have hb : (cumsumAux 0 ts).get? i = some b := by
      have := h1.2
      simpa using this
    have ha' : (cumsumAux 0 ts).get? i = some a' := by
      have := h2.1
      simpa using this
    rw [hb] at ha'
    exact Option.some.inj ha'
  · intro ts a b h
    rw [slice_limits, List.get?_zip_eq_some] at h
    have hb : (cumsumAux 0 ts).get? (ts.length - 1) = some b := by
      have := h.2
      simpa using this
    cases ts with
    | nil => simp [cumsumAux] at hb
    | cons t rest =>
      rw [cumsumAux_get? 0 (t :: rest) ((t :: rest).length - 1)
          (by simp)] at hb
      have := Option.some.inj hb
      rw [show (t :: rest).length - 1 + 1 = (t :: rest).length by simp,
        List.take_length, zero_add] at this
      exact this.symm
  · simp [slice_limits, cumsumAux]
    norm_num

/-- C6 witness: the theorem applied to the concrete table [2, 3, 5] at
boundary index 0/1 yields exit of slab 0 = entry of slab 1 = 2. -/
theorem slice_limits_boundary_table_witness : (2 : ℚ) = 2 := by
  have hc := slice_limits_boundary_table.2.2.2.2
  refine slice_limits_boundary_table.2.2.1 [2, 3, 5] 0 0 2 2 5 ?_ ?_
  · rw [hc]
    rfl
  · rw [hc]
    rfl

/-- C10: the source `_unpack_item` agrees with the claim's description of
item-to-range resolution: an int `i` maps to first = i, last = i + 1; a
slice defaults start/stop to 0 / num_items and clamps last to num_items;
an index error is raised if and only if, after clamping, first ≥ last, and
on success the resolved indices are returned. -/
theorem unpack_item_matches_claim (item : SliceItem) (num_items : ℤ) :
    _unpack_item item num_items = unpackItemClaim item num_items := by
  cases item with
  | int i =>
    simp only [_unpack_item, unpackItemClaim]
    by_cases h : i ≥ min (i + 1) num_items
    · rw [if_pos h, if_pos h]
    · rw [if_neg h, if_neg h, show min (i + 1) num_items = i + 1 by omega]
  | slice s e =>
    simp only [_unpack_item, unpackItemClaim]

/-- C9 (code bug): the transverse-plane padding parameter `xy_padding` of
`SlicedAtoms` is stored but never read by `get_atoms_in_slices`; the
result of any range query is identical for any two xy-padding values, so
no structure, range and pair of xy-padding values can yield different atom
sets, contrary to the claim and to the class's own docstring. -/
theorem sliced_xy_padding_unused (atoms : Atoms) (ts : List ℚ)
    (p₁ p₂ zp : ℚ) (first_slice : ℕ) (last_slice : Option ℕ)
    (atomic_number : Option ℕ) :
    SlicedAtoms.get_atoms_in_slices ⟨atoms, ts, p₁, zp⟩
        first_slice last_slice atomic_number =
      SlicedAtoms.get_atoms_in_slices ⟨atoms, ts, p₂, zp⟩
        first_slice last_slice atomic_number := rfl

/-- C2 (code bug): on the concrete 3-slab structure, the single-slab query
written with a defaulted `last_slice` (the claimed meaning is the range
[0, 1)) returns a structure whose cell height is 0, while slab 0's own
thickness is 2: `slice_thickness[first:first]` is empty, contradicting the
claimed box-extent law. -/
theorem indexed_default_box_collapses :
    (scenarioIndexed.get_atoms_in_slices 0 none none).cell.2.2 = 0 ∧
      scenarioIndexed.slice_thickness.getD 0 0 = 2 := ⟨rfl, rfl⟩

/-- C1: binning at construction of `SliceIndexedAtoms` is right-open: an
atom whose z coordinate equals the interior boundary between slab k and
slab k + 1 (the k-th cumulative thickness) is placed in the bucket of slab
k + 1, the slab beginning at that boundary, and in no other bucket. -/
theorem indexed_right_open_binning (s : SliceIndexedAtoms) (k j : ℕ)
    (p : ℚ × ℚ × ℚ)
    (hpos : ∀ t ∈ s.slice_thickness, 0 < t)
    (hk : k + 1 < s.num_slices)
    (hj : s.atoms.positions.get? j = some p)
    (hz : (cumsum s.slice_thickness).get? k = some (zc p)) :
    j ∈ s.slice_index.getD (k + 1) [] ∧
      ∀ i, i ≠ k + 1 → j ∉ s.slice_index.getD i [] := by
  have hlab : s.labels.getD j 0 = k + 1 := by
    rw [labels_getD s j p hj]
    exact countP_pairwise_boundary _ (cumsumAux_pairwise 0 _ hpos) k _ hz
  have hjlen : j < s.labels.length := by
    rw [labels_length]
    obtain ⟨h, _⟩ := List.get?_eq_some.mp hj
    exact h
  constructor
  · rw [SliceIndexedAtoms.slice_index, mem_label_to_index]
    exact ⟨by omega, hjlen, hlab⟩
  · intro i hi hmem
    rw [SliceIndexedAtoms.slice_index, mem_label_to_index] at hmem
    exact hi (hmem.2.2.symm.trans hlab)

/-- C1 witness: with box height 10 and thicknesses [2, 3, 5], the atom at
z = 2.0 (index 0 of the scenario structure) is assigned to slab 1, not
slab 0. -/
theorem indexed_right_open_binning_witness :
    0 ∈ scenarioIndexed.slice_index.getD 1 [] ∧
      0 ∉ scenarioIndexed.slice_index.getD 0 [] := by
  have h := indexed_right_open_binning scenarioIndexed 0 0 (1, 1, 2)
    (by
      intro t ht
      simp only [scenarioIndexed, List.mem_cons, List.not_mem_nil,
        or_false] at ht
      rcases ht with rfl | rfl | rfl <;> norm_num)
    (by norm_num [scenarioIndexed, SliceIndexedAtoms.num_slices])
    rfl
    (by
      simp only [scenarioIndexed, cumsum, cumsumAux, List.get?_cons_zero,
        zc]
      norm_num)
  exact ⟨h.1, h.2 0 (by omega)⟩

/-- C3: with positive thicknesses summing exactly to the box height, every
atom with z strictly inside [0, box height) lies in exactly one of the
`num_slices` buckets of the index built at construction, and an atom with
z exactly equal to the box height lies in no bucket (it is dropped). -/
theorem indexed_partition (s : SliceIndexedAtoms)
    (hpos : ∀ t ∈ s.slice_thickness, 0 < t)
    (hsum : s.slice_thickness.sum = s.atoms.cell.2.2) :
    (∀ j p, s.atoms.positions.get? j = some p →
        0 ≤ zc p → zc p < s.atoms.cell.2.2 →
        ∃ i, i < s.num_slices ∧ j ∈ s.slice_index.getD i [] ∧
          ∀ i', j ∈ s.slice_index.getD i' [] → i' = i) ∧
    (∀ j p, s.atoms.positions.get? j = some p →
        zc p = s.atoms.cell.2.2 →
        ∀ i, j ∉ s.slice_index.getD i []) := by
  have hpos' : ∀ t ∈ s.slice_thickness, (0 : ℚ) ≤ t :=
    fun t ht => le_of_lt (hpos t ht)
  have hcumlen : (cumsum s.slice_thickness).length = s.num_slices := by
    simp [cumsum, cumsumAux_length, SliceIndexedAtoms.num_slices]
  constructor
  · intro j p hj h0 hlt
    have hjlen : j < s.labels.length := by
      rw [labels_length]
      obtain ⟨h, _⟩ := List.get?_eq_some.mp hj
      exact h
    have hlabel := labels_getD s j p hj
    have hne : s.slice_thickness ≠ [] := by
      intro h
      rw [h] at hsum
      simp only [List.sum_nil] at hsum
      rw [← hsum] at hlt
      linarith
    have hcount :
        npDigitize (zc p) (cumsum s.slice_thickness) < s.num_slices := by
      unfold npDigitize
      by_contra hge
      push_neg at hge
      have hle := List.countP_le_length
        (p := fun b => decide (b ≤ zc p)) (l := cumsum s.slice_thickness)
      have heq : (cumsum s.slice_thickness).countP
          (fun b => decide (b ≤ zc p)) =
            (cumsum s.slice_thickness).length := by omega
      have hall := List.countP_eq_length.mp heq
      have hsummem := sum_mem_cumsum s.slice_thickness hne
      have htop := hall _ hsummem
      rw [decide_eq_true_eq, hsum] at htop
      linarith
    refine ⟨npDigitize (zc p) (cumsum s.slice_thickness), hcount, ?_, ?_⟩
    · rw [SliceIndexedAtoms.slice_index, mem_label_to_index]
      exact ⟨by omega, hjlen, hlabel⟩
    · intro i' hmem
      rw [SliceIndexedAtoms.slice_index, mem_label_to_index] at hmem
      exact hmem.2.2.symm.trans hlabel
  · intro j p hj hz i hmem
    rw [SliceIndexedAtoms.slice_index, mem_label_to_index] at hmem
    obtain ⟨hi, hjlen, hlab⟩ := hmem
    rw [labels_getD s j p hj] at hlab
    have hcnt :
        npDigitize (zc p) (cumsum s.slice_thickness) = s.num_slices := by
      unfold npDigitize
      rw [List.countP_eq_length.mpr, hcumlen]
      intro b hb
      rw [decide_eq_true_eq, hz]
      have := mem_cumsum_le_sum s.slice_thickness hpos' b hb
      rw [hsum] at this
      exact this
    rw [hcnt] at hlab
    omega

/-- C3 witness: on the scenario structure (thicknesses [2, 3, 5], box
height 10), the atom at z = 2 (index 0) belongs to exactly one bucket. -/
theorem indexed_partition_witness :
    ∃ i, i < scenarioIndexed.num_slices ∧
      0 ∈ scenarioIndexed.slice_index.getD i [] ∧
      ∀ i', 0 ∈ scenarioIndexed.slice_index.getD i' [] → i' = i := by
  refine (indexed_partition scenarioIndexed ?_ ?_).1 0 (1, 1, 2) rfl ?_ ?_
  · intro t ht
    simp only [scenarioIndexed, List.mem_cons, List.not_mem_nil,
      or_false] at ht
    rcases ht with rfl | rfl | rfl <;> norm_num
  · simp only [scenarioIndexed]
    norm_num
  · norm_num [zc]
  · norm_num [zc, scenarioIndexed]

/-- C4: for the indexed variant, the atom-index selection of the full-range
query `get_atoms_in_slices(0, N)` contains an atom index exactly when one
of the single-slab selections `get_atoms_in_slices(i, i+1)` for i < N
contains it. -/
theorem indexed_range_concat (s : SliceIndexedAtoms) (j : ℕ) :
    j ∈ s.selection 0 s.num_slices ↔
      ∃ i, i < s.num_slices ∧ j ∈ s.selection i (i + 1) := by
  have hsel1 : ∀ i, s.selection i (i + 1) = s.slice_index.getD i [] := by
    intro i
    unfold SliceIndexedAtoms.selection
    rw [if_pos (by omega)]
  have hlen := slice_index_length s
  by_cases hN : s.num_slices < 2
  · rw [SliceIndexedAtoms.selection, if_pos (by omega)]
    constructor
    · intro hmem
      refine ⟨0, ?_, ?_⟩
      · rcases Nat.eq_zero_or_pos s.num_slices with h0 | h0
        · exfalso
          have hnil : s.slice_index = [] := List.length_eq_zero.mp (by omega)
          rw [hnil] at hmem
          simp at hmem
        · exact h0
      · rw [hsel1]
        exact hmem
    · rintro ⟨i, hi, hmem⟩
      rw [hsel1] at hmem
      have hi0 : i = 0 := by omega
      rw [hi0] at hmem
      exact hmem
  · push_neg at hN
    rw [SliceIndexedAtoms.selection, if_neg (by omega)]
    rw [List.drop_zero, Nat.sub_zero, ← hlen, List.take_length]
    rw [List.mem_flatten]
    constructor
    · rintro ⟨l, hl, hjl⟩
      rcases List.mem_iff_get?.mp hl with ⟨i, hi⟩
      obtain ⟨hilen, _⟩ := List.get?_eq_some.mp hi
      refine ⟨i, by omega, ?_⟩
      rw [hsel1, List.getD_eq_getD_get?, hi]
      exact hjl
    · rintro ⟨i, hi, hmem⟩
      rw [hsel1] at hmem
      have hilen : i < s.slice_index.length := by omega
      refine ⟨s.slice_index.getD i [], ?_, hmem⟩
      rw [List.getD_eq_get _ _ hilen]
      exact List.get_mem _ _ _

/-- C5: a single numeric thickness t with a given total height H resolves
to n = ceil(H / t) entries, each H / n, summing exactly to H; the isclose
validation therefore passes and the list is returned. -/
theorem validate_single_number (t H : ℚ) (ht : 0 < t) (hH : 0 < H) :
    _validate_slice_thickness (.num t) (some H) none =
        .ok (List.replicate (⌈H / t⌉).toNat (H / ((⌈H / t⌉ : ℤ) : ℚ))) ∧
      (List.replicate (⌈H / t⌉).toNat (H / ((⌈H / t⌉ : ℤ) : ℚ))).length =
        (⌈H / t⌉).toNat ∧
      (List.replicate (⌈H / t⌉).toNat (H / ((⌈H / t⌉ : ℤ) : ℚ))).sum = H := by
  have hn : (0 : ℤ) < ⌈H / t⌉ := Int.ceil_pos.mpr (div_pos hH ht)
  have hnQ : ((⌈H / t⌉ : ℤ) : ℚ) ≠ 0 := by
    rw [Int.cast_ne_zero]
    omega
  have hsum : (List.replicate (⌈H / t⌉).toNat
      (H / ((⌈H / t⌉ : ℤ) : ℚ))).sum = H := by
    rw [List.sum_replicate, nsmul_eq_mul]
    rw [show (((⌈H / t⌉).toNat : ℕ) : ℚ) = ((⌈H / t⌉ : ℤ) : ℚ) by
      rw [← Int.cast_natCast, Int.toNat_of_nonneg (le_of_lt hn)]]
    field_simp
  refine ⟨?_, List.length_replicate _ _, hsum⟩
  simp only [_validate_slice_thickness]
  rw [hsum, isclose_self]
  rfl

/-- C5 witness: spec 3.0 with box height 10.0 resolves to 4 slabs of
thickness 2.5 (sum exactly 10). -/
theorem validate_single_number_witness :
    _validate_slice_thickness (.num 3) (some 10) none =
      .ok [5 / 2, 5 / 2, 5 / 2, 5 / 2] := by
  have h := (validate_single_number 3 10 (by norm_num) (by norm_num)).1
  rw [h]
  rw [show (⌈(10 : ℚ) / 3⌉ : ℤ) = 4 by norm_num [Int.ceil_eq_iff]]
  norm_num [List.replicate]

theorem mem_insertSorted (x a : ℤ) (l : List ℤ) :
    a ∈ insertSorted x l ↔ a = x ∨ a ∈ l := by
  induction l with
  | nil => simp [insertSorted]
  | cons y rest ih =>
    simp only [insertSorted]
    split
    · simp [List.mem_cons]
    · split
      · rename_i h1 h2
        subst h2
        simp only [List.mem_cons]
        tauto
      · simp only [List.mem_cons, ih]
        tauto

theorem insertSorted_pairwise (x : ℤ) (l : List ℤ)
    (hl : l.Pairwise (· < ·)) : (insertSorted x l).Pairwise (· < ·) := by
  induction l with
  | nil => simp [insertSorted]
  | cons y rest ih =>
    obtain ⟨hy, hrest⟩ := List.pairwise_cons.mp hl
    simp only [insertSorted]
    split
    · rename_i h1
      refine List.pairwise_cons.mpr ⟨?_, hl⟩
      intro b hb
      rcases List.mem_cons.mp hb with rfl | hb
      · exact h1
      · exact lt_trans h1 (hy b hb)
    · split
      · exact hl
      · rename_i h1 h2
        have hxy : y < x := by omega
        refine List.pairwise_cons.mpr ⟨?_, ih hrest⟩
        intro b hb
        rcases (mem_insertSorted x b rest).mp hb with rfl | hb
        · exact hxy
        · exact hy b hb

theorem mem_npUnique (l : List ℤ) (a : ℤ) : a ∈ npUnique l ↔ a ∈ l := by
  induction l with
  | nil => simp [npUnique]
  | cons x rest ih =>
    show a ∈ insertSorted x (npUnique rest) ↔ _
    rw [mem_insertSorted, ih]
    simp [List.mem_cons]

theorem npUnique_pairwise (l : List ℤ) :
    (npUnique l).Pairwise (· < ·) := by
  induction l with
  | nil => simp [npUnique]
  | cons x rest ih => exact insertSorted_pairwise x _ ih

theorem pairwise_head?_le (l : List ℤ) (a : ℤ)
    (hl : l.Pairwise (· < ·)) (ha : l.head? = some a) :
    ∀ x ∈ l, a ≤ x := by
  cases l with
  | nil => simp at ha
  | cons y rest =>
    intro x hx
    have hay : a = y := by simpa using ha.symm
    subst hay
    rcases List.mem_cons.mp hx with rfl | hx
    · exact le_refl _
    · exact le_of_lt ((List.pairwise_cons.mp hl).1 x hx)

theorem pairwise_le_getLast? :
    ∀ (l : List ℤ) (b : ℤ), l.Pairwise (· < ·) → l.getLast? = some b →
      ∀ x ∈ l, x ≤ b := by
  intro l
  induction l with
  | nil =>
    intro b _ hb
    simp at hb
  | cons y rest ih =>
    intro b hl hb x hx
    obtain ⟨hy, hrest⟩ := List.pairwise_cons.mp hl
    cases rest with
    | nil =>
      simp only [List.getLast?_singleton, Option.some.injEq] at hb
      simp only [List.mem_singleton] at hx
      omega
    | cons w rest' =>
      rw [List.getLast?_cons_cons] at hb
      rcases List.mem_cons.mp hx with rfl | hx
      · exact le_of_lt (hy b (List.mem_of_getLast?_eq_some hb))
      · exact ih b hrest hb x hx

theorem npDiff_sum (l : List ℚ) (a b : ℚ) (ha : l.head? = some a)
    (hb : l.getLast? = some b) : (npDiff l).sum = b - a := by
  induction l generalizing a b with
  | nil => simp at ha
  | cons x rest ih =>
    have hax : a = x := by simpa using ha.symm
    subst hax
    cases rest with
    | nil =>
      simp only [List.getLast?_singleton, Option.some.injEq] at hb
      subst hb
      simp [npDiff]
    | cons y rest' =>
      rw [List.getLast?_cons_cons] at hb
      simp only [npDiff, List.sum_cons]
      rw [ih y b rfl hb]
      ring

theorem zip_map_fst_snd {α β : Type} (l : List (α × β)) :
    (l.map Prod.fst).zip (l.map Prod.snd) = l := by
  induction l with
  | nil => rfl
  | cons p rest ih => simp [ih]

/-- C7 counterexample: for the default tolerance 0.2 and box height 10.1
(one atom at z = 5), the sum of the plane-spacing thicknesses is 10, which
is not within `np.isclose` tolerance of the box height, so the assertion
in `crystal_slice_thicknesses` fails. -/
theorem crystal_assert_fails :
    crystal_slice_thicknesses
        { cell := (4, 4, 101 / 10), positions := [(1, 1, 5)],
          numbers := [14] } (1 / 5) = .error "AssertionError" := by
  rw [crystal_slice_thicknesses]
  norm_num [zc, npUnique, insertSorted, npDiff, isclose, Int.floor_eq_iff]
  intro h
  rw [abs_of_nonneg (by norm_num : (0 : ℚ) ≤ 1 / 10),
    abs_of_nonneg (by norm_num : (0 : ℚ) ≤ 101 / 10)] at h
  norm_num at h

/-- C7 (amended): when the box height is an exact natural multiple of the
tolerance and every atom z coordinate lies in [0, box height], the
heuristic succeeds and the returned thicknesses sum exactly to the box
height; in general the sum is (largest bucket - smallest bucket) * tol and
the assertion fails when that differs from the box height (see the
counterexample at height 10.1, tolerance 0.2). -/
theorem crystal_sum_matches (atoms : Atoms) (tol : ℚ) (k : ℕ)
    (hne : atoms.positions ≠ [])
    (htol : 0 < tol)
    (hcell : atoms.cell.2.2 = (k : ℚ) * tol)
    (hin : ∀ p ∈ atoms.positions, 0 ≤ zc p ∧ zc p ≤ atoms.cell.2.2) :
    ∃ l, crystal_slice_thicknesses atoms tol = .ok l ∧
      l.sum = atoms.cell.2.2 := by
  have key : (npDiff ((npUnique
      ((atoms.positions.map zc ++ [0, atoms.cell.2.2]).map
        (fun v => ⌊v / tol⌋))).map
      (fun u : ℤ => ((u : ℚ) + 1 / 2) * tol))).sum = atoms.cell.2.2 := by
    set zs : List ℚ := atoms.positions.map zc ++ [0, atoms.cell.2.2]
      with hzs
    set U : List ℤ := npUnique (zs.map (fun v => ⌊v / tol⌋)) with hU
    have hz_bounds : ∀ v ∈ zs, 0 ≤ v ∧ v ≤ atoms.cell.2.2 := by
      intro v hv
      rw [hzs, List.mem_append] at hv
      rcases hv with hv | hv
      · rcases List.mem_map.mp hv with ⟨p, hp, rfl⟩
        exact hin p hp
      · have hc : (0 : ℚ) ≤ atoms.cell.2.2 := by
          rw [hcell]
          positivity
        simp only [List.mem_cons, List.not_mem_nil, or_false] at hv
        rcases hv with rfl | rfl
        · exact ⟨le_refl 0, hc⟩
        · exact ⟨hc, le_refl _⟩
    have hmem0 : (0 : ℤ) ∈ U := by
      rw [hU, mem_npUnique]
      apply List.mem_map.mpr
      refine ⟨0, ?_, by simp⟩
      rw [hzs]
      simp
    have hmemk : (k : ℤ) ∈ U := by
      rw [hU, mem_npUnique]
      apply List.mem_map.mpr
      refine ⟨atoms.cell.2.2, by rw [hzs]; simp, ?_⟩
      rw [hcell, mul_div_cancel_right₀ _ (ne_of_gt htol)]
      exact Int.floor_natCast k
    have hbounds : ∀ c ∈ U, (0 : ℤ) ≤ c ∧ c ≤ (k : ℤ) := by
      intro c hc
      rw [hU, mem_npUnique] at hc
      rcases List.mem_map.mp hc with ⟨v, hv, rfl⟩
      obtain ⟨hv0, hvc⟩ := hz_bounds v hv
      refine ⟨Int.floor_nonneg.mpr (div_nonneg hv0 (le_of_lt htol)), ?_⟩
      have hvk : v / tol ≤ (k : ℚ) := by
        rw [div_le_iff htol]
        rw [← hcell]
        exact hvc
      calc ⌊v / tol⌋ ≤ ⌊(k : ℚ)⌋ := Int.floor_le_floor hvk
        _ = (k : ℤ) := Int.floor_natCast k
    have hUne : U ≠ [] := List.ne_nil_of_mem hmem0
    have hUsorted : U.Pairwise (· < ·) := by
      rw [hU]
      exact npUnique_pairwise _
    have hhead : U.head? = some 0 := by
      rw [List.head?_eq_head hUne]
      congr 1
      apply le_antisymm
      · exact pairwise_head?_le U _ hUsorted (List.head?_eq_head hUne) 0
          hmem0
      · exact (hbounds _ (List.head_mem hUne)).1
    have hlast : U.getLast? = some (k : ℤ) := by
      rw [List.getLast?_eq_getLast U hUne]
      congr 1
      apply le_antisymm
      · exact (hbounds _ (List.getLast_mem hUne)).2
      · exact pairwise_le_getLast? U _ hUsorted
          (List.getLast?_eq_getLast U hUne) _ hmemk
    have hmh : (U.map (fun u : ℤ => ((u : ℚ) + 1 / 2) * tol)).head? =
        some ((((0 : ℤ) : ℚ) + 1 / 2) * tol) := by
      rw [List.head?_map, hhead]
      rfl
    have hml : (U.map (fun u : ℤ => ((u : ℚ) + 1 / 2) * tol)).getLast? =
        some ((((k : ℤ) : ℚ) + 1 / 2) * tol) := by
      rw [List.getLast?_map, hlast]
      rfl
    rw [npDiff_sum _ _ _ hmh hml, hcell]
    push_cast
    ring
  refine ⟨_, ?_, key⟩
  rw [crystal_slice_thicknesses]
  rw [if_neg (by simp [hne])]
  simp only [key, isclose_self, if_true]

/-- C7 witness: box height 10 = 50 * 0.2, one atom at z = 5: the heuristic
returns thicknesses summing to 10. -/
theorem crystal_sum_matches_witness :
    ∃ l, crystal_slice_thicknesses
        { cell := (4, 4, 10), positions := [(1, 1, 5)], numbers := [14] }
        (1 / 5) = .ok l ∧ l.sum = 10 := by
  have h := crystal_sum_matches
    { cell := (4, 4, 10), positions := [(1, 1, 5)], numbers := [14] }
    (1 / 5) 50 (by simp) (by norm_num) (by norm_num)
    (by
      intro p hp
      simp only [List.mem_cons, List.not_mem_nil, or_false] at hp
      subst hp
      norm_num [zc])
  simpa using h

/-- C8: a range query on `SlicedAtoms` whose first slab has entry boundary
a and whose last slab has exit boundary b keeps exactly the (position,
number) pairs with z in [a - z_padding, b + z_padding) passing the species
filter, leaves positions in the world frame (result pairs are drawn
unchanged from the source pairs), and returns the box (x, y, b - a)
independently of the paddings. -/
theorem sliced_range_query (s : SlicedAtoms) (first_slice last_slice : ℕ)
    (atomic_number : Option ℕ) (a b₁ a₂ b : ℚ)
    (hfirst : (slice_limits s.slice_thickness).get? first_slice =
      some (a, b₁))
    (hlast : (slice_limits s.slice_thickness).get? last_slice =
      some (a₂, b)) :
    (s.get_atoms_in_slices first_slice (some last_slice)
        atomic_number).cell =
      (s.atoms.cell.1, s.atoms.cell.2.1, b - a) ∧
    ∀ p n,
      ((p, n) ∈ ((s.get_atoms_in_slices first_slice (some last_slice)
            atomic_number).positions.zip
          (s.get_atoms_in_slices first_slice (some last_slice)
            atomic_number).numbers)) ↔
      ((p, n) ∈ s.atoms.positions.zip s.atoms.numbers ∧
        (a - s.z_padding ≤ zc p ∧ zc p < b + s.z_padding) ∧
        ∀ za, atomic_number = some za → n = za) := by
  have hgetA : ((slice_limits s.slice_thickness).getD first_slice
      (0, 0)).1 = a := by
    rw [List.getD_eq_getD_get?, hfirst]
    rfl
  have hgetB : ((slice_limits s.slice_thickness).getD last_slice
      (0, 0)).2 = b := by
    rw [List.getD_eq_getD_get?, hlast]
    rfl
  unfold SlicedAtoms.get_atoms_in_slices
  simp only [Option.getD_some]
  simp only [hgetA, hgetB]
  constructor
  · trivial
  · intro p n
    show (p, n) ∈ (((s.atoms.positions.zip s.atoms.numbers).filter
        _).map Prod.fst).zip
        (((s.atoms.positions.zip s.atoms.numbers).filter _).map Prod.snd) ↔ _
    rw [zip_map_fst_snd, List.mem_filter]
    cases atomic_number with
    | none =>
      simp only [Bool.and_eq_true, decide_eq_true_eq, Bool.and_true]
      constructor
      · rintro ⟨hmem, hz⟩
        exact ⟨hmem, hz, by rintro za ⟨⟩⟩
      · rintro ⟨hmem, hz, _⟩
        exact ⟨hmem, hz⟩
    | some za =>
      simp only [Bool.and_eq_true, decide_eq_true_eq, beq_iff_eq]
      constructor
      · rintro ⟨hmem, hz, hn⟩
        refine ⟨hmem, hz, ?_⟩
        rintro za' hza'
        rw [← Option.some.inj hza']
        exact hn
      · rintro ⟨hmem, hz, hn⟩
        exact ⟨hmem, hz, hn za rfl⟩

/-- C8 witness: on the concrete structure with thicknesses [2, 3, 5] and
no padding, the query over slabs 0..1 has box (4, 4, 5 - 0) and contains
the unshifted atom (1, 1, 2) with number 6, which lies in [0 - 0, 5 + 0). -/
theorem sliced_range_query_witness :
    (scenarioSliced.get_atoms_in_slices 0 (some 1) none).cell =
      (scenarioSliced.atoms.cell.1, scenarioSliced.atoms.cell.2.1,
        5 - 0) ∧
    ((((1 : ℚ), (1 : ℚ), (2 : ℚ)), (6 : ℕ)) ∈
        ((scenarioSliced.get_atoms_in_slices 0 (some 1) none).positions.zip
          (scenarioSliced.get_atoms_in_slices 0 (some 1) none).numbers) ↔
      ((((1 : ℚ), (1 : ℚ), (2 : ℚ)), (6 : ℕ)) ∈
          scenarioSliced.atoms.positions.zip scenarioSliced.atoms.numbers ∧
        (0 - scenarioSliced.z_padding ≤ zc (1, 1, 2) ∧
          zc ((1 : ℚ), (1 : ℚ), (2 : ℚ)) < 5 + scenarioSliced.z_padding) ∧
        ∀ za, (none : Option ℕ) = some za → (6 : ℕ) = za)) := by
  have h := sliced_range_query scenarioSliced 0 1 none 0 2 2 5
    (by
      simp only [scenarioSliced, slice_limits, cumsumAux, List.tail_cons,
        List.zip_cons_cons, List.get?_cons_zero]
      norm_num)
    (by
      simp only [scenarioSliced, slice_limits, cumsumAux, List.tail_cons,
        List.zip_cons_cons, List.get?_cons_succ, List.get?_cons_zero]
      norm_num)
  exact ⟨h.1, h.2 (1, 1, 2) 6⟩

end AbtemSlicing
